import Mathlib

/-!
A verification development for the PXA-to-Affine lowering pass
(`pmlc/conversion/pxa_to_affine/pxa_to_affine.cc`).

The pass contains two rewrite rules:
* `AffineParallelOpConversion::rewrite` lowers one multi-dimensional
  parallel loop (`AffineParallelOp`) into a nest of single-dimension
  `AffineForOp`s, splices the body into the innermost loop, and replaces
  every use of the old block arguments by the new induction variables.
* `AffineReduceOpConversion::rewrite` expands one indexed reduce op into a
  load, a kind-dispatched combine computation, and a store.

The source is embedded shallowly: values are identifiers (`Nat`), affine
maps keep an abstract list of result-expression identifiers, and the
emitted operations are modelled both at the trace level (which primitive
ops are created, with which comparison predicates) and at the value level
(the value the combine computation denotes).
-/

namespace PxaToAffine

/-- A value in the program graph, identified by a stable id (MLIR `Value`
objects are modelled by their identity). -/
abbrev ValueId := Nat

/-! ## Scalar values for the reduce combine

Floating-point values are modelled as either NaN or a finite number held
exactly.  The claims about the combine evaluate only at values where IEEE
addition and multiplication are exact (small integers) and at NaN, where
the IEEE ordered comparisons are false; both regimes are captured
faithfully by this model. -/

/-- A floating-point value: NaN, or a finite value held exactly. -/
inductive FloatVal where
  | nan : FloatVal
  | fin (x : ℚ) : FloatVal
deriving DecidableEq

/-- A scalar value of one of the two supported scalar kinds. -/
inductive ScalarVal where
  | int (v : Int) : ScalarVal
  | flt (v : FloatVal) : ScalarVal
deriving DecidableEq

/-- `AddFOp`: IEEE addition, exact on finite values, NaN-propagating. -/
def faddV : FloatVal → FloatVal → FloatVal
  | .fin a, .fin b => .fin (a + b)
  | _, _ => .nan

/-- `MulFOp`: IEEE multiplication, exact on finite values, NaN-propagating. -/
def fmulV : FloatVal → FloatVal → FloatVal
  | .fin a, .fin b => .fin (a * b)
  | _, _ => .nan

/-- The floating comparison predicates used by the source (`CmpFPredicate`):
ordered greater-than and ordered less-than. -/
inductive CmpFPredicate where
  | OGT : CmpFPredicate
  | OLT : CmpFPredicate
deriving DecidableEq

/-- The integer comparison predicates used by the source (`CmpIPredicate`):
signed greater-than and signed less-than. -/
inductive CmpIPredicate where
  | sgt : CmpIPredicate
  | slt : CmpIPredicate
deriving DecidableEq

/-- `CmpFOp`: an ordered comparison evaluates to false whenever either
operand is NaN. -/
def cmpF : CmpFPredicate → FloatVal → FloatVal → Bool
  | .OGT, .fin a, .fin b => decide (b < a)
  | .OLT, .fin a, .fin b => decide (a < b)
  | _, _, _ => false

/-- `CmpIOp`: signed integer comparison (integers are modelled by their
signed interpretation). -/
def cmpI : CmpIPredicate → Int → Int → Bool
  | .sgt, a, b => decide (b < a)
  | .slt, a, b => decide (a < b)

/-- `SelectOp`: pick the first value when the condition is true. -/
def selectV {α : Type} (c : Bool) (a b : α) : α :=
  if c then a else b

/-- Aggregation kinds (`util::AggregationKind`).  The enumeration itself is
declared outside this file; it is modelled from the spec: the five
supported kinds, plus `none`, standing for any enumerator outside the five
(the source switch has a `default` branch for those). -/
inductive AggregationKind where
  | none : AggregationKind
  | assign : AggregationKind
  | add : AggregationKind
  | max : AggregationKind
  | min : AggregationKind
  | mul : AggregationKind
deriving DecidableEq

/-- Value-level semantics of `AffineReduceOpConversion::createReduction`:
the value denoted by the combine computation the source emits, given the
loaded value (`source`, the first scalar argument) and the reduce's value
(`op.val()`, the second).  The source dispatches on the aggregation kind
and on whether the element type is a float type; `Option.none` models the
`llvm_unreachable` default (and the never-occurring ill-typed mix of
scalar kinds, which in MLIR is ruled out by op verification). -/
def createReductionVal : AggregationKind → ScalarVal → ScalarVal → Option ScalarVal
  | AggregationKind.assign, _, v => some v
  | AggregationKind.add, ScalarVal.flt l, ScalarVal.flt v =>
      some (ScalarVal.flt (faddV l v))
  | AggregationKind.add, ScalarVal.int l, ScalarVal.int v =>
      some (ScalarVal.int (l + v))
  | AggregationKind.max, ScalarVal.flt l, ScalarVal.flt v =>
      some (ScalarVal.flt (selectV (cmpF CmpFPredicate.OGT v l) v l))
  | AggregationKind.max, ScalarVal.int l, ScalarVal.int v =>
      some (ScalarVal.int (selectV (cmpI CmpIPredicate.sgt v l) v l))
  | AggregationKind.min, ScalarVal.flt l, ScalarVal.flt v =>
      some (ScalarVal.flt (selectV (cmpF CmpFPredicate.OLT v l) v l))
  | AggregationKind.min, ScalarVal.int l, ScalarVal.int v =>
      some (ScalarVal.int (selectV (cmpI CmpIPredicate.slt v l) v l))
  | AggregationKind.mul, ScalarVal.flt l, ScalarVal.flt v =>
      some (ScalarVal.flt (fmulV l v))
  | AggregationKind.mul, ScalarVal.int l, ScalarVal.int v =>
      some (ScalarVal.int (l * v))
  | _, _, _ => Option.none

/-- The primitive operations the combine computation may create, at the
trace level. -/
inductive CombineOp where
  | addf : CombineOp
  | addi : CombineOp
  | mulf : CombineOp
  | muli : CombineOp
  | cmpf (p : CmpFPredicate) : CombineOp
  | cmpi (p : CmpIPredicate) : CombineOp
  | select : CombineOp
deriving DecidableEq

/-- Trace-level view of `createReduction`: the list of primitive ops the
source creates for a given aggregation kind and element scalar kind
(`isFloat` is `source.getType().isa<FloatType>()`).  `assign` creates no
op (it returns `op.val()` directly); `Option.none` models the
`llvm_unreachable` default. -/
def combineOpsFor (agg : AggregationKind) (isFloat : Bool) : Option (List CombineOp) :=
  match agg with
  | AggregationKind.assign => some []
  | AggregationKind.add => some [if isFloat then CombineOp.addf else CombineOp.addi]
  | AggregationKind.max =>
      if isFloat then some [CombineOp.cmpf CmpFPredicate.OGT, CombineOp.select]
      else some [CombineOp.cmpi CmpIPredicate.sgt, CombineOp.select]
  | AggregationKind.min =>
      if isFloat then some [CombineOp.cmpf CmpFPredicate.OLT, CombineOp.select]
      else some [CombineOp.cmpi CmpIPredicate.slt, CombineOp.select]
  | AggregationKind.mul => some [if isFloat then CombineOp.mulf else CombineOp.muli]
  | AggregationKind.none => Option.none

/-- The indexed reduce op (`pxa::AffineReduceOp`): aggregation kind,
element scalar kind of the target memref, the target memref (`out`), the
index mapping (`map`), the index operands (`idxs`), and the value to
combine (`val`). -/
structure AffineReduceOp where
  agg : AggregationKind
  elemFloat : Bool
  out : Nat
  map : Nat
  idxs : List Nat
  val : ScalarVal
deriving DecidableEq

/-- An operation emitted by `AffineReduceOpConversion::rewrite`: the
`AffineLoadOp`, the combine ops, or the `AffineStoreOp`.  Load and store
record the memref, index mapping and index operands they were created
with. -/
inductive EmOp where
  | load (out mp : Nat) (idxs : List Nat) : EmOp
  | comb (c : CombineOp) : EmOp
  | store (out mp : Nat) (idxs : List Nat) : EmOp
deriving DecidableEq

/-- Whether an emitted op is the load. -/
def isLoad : EmOp → Bool
  | .load _ _ _ => true
  | _ => false

/-- Whether an emitted op is the store. -/
def isStore : EmOp → Bool
  | .store _ _ _ => true
  | _ => false

/-- `AffineReduceOpConversion::rewrite`: emit a load of `op.out()` at
`op.map()`/`op.idxs()`, then the combine ops, then a store back at the
identical memref, map and index operands.  `Option.none` models the abort
through `llvm_unreachable` on an unsupported aggregation kind, after which
nothing is produced. -/
def reduceRewrite (op : AffineReduceOp) : Option (List EmOp) :=
  match combineOpsFor op.agg op.elemFloat with
  | Option.none => Option.none
  | some cs =>
      some (EmOp.load op.out op.map op.idxs ::
        (cs.map EmOp.comb ++ [EmOp.store op.out op.map op.idxs]))

/-- An operation in the surrounding block before/after reduce expansion:
either a still-unexpanded reduce op or an already-primitive op. -/
inductive POp where
  | reduce (r : AffineReduceOp) : POp
  | prim (e : EmOp) : POp
deriving DecidableEq

/-- Expansion of a reduce op at its program point: the ops before it and
after it are unchanged, the emitted trace replaces the op (the rewriter
inserts the new ops at the op's position and then erases the op). -/
def expandReduceAt (pre post : List POp) (op : AffineReduceOp) : Option (List POp) :=
  match reduceRewrite op with
  | Option.none => Option.none
  | some tr => some (pre ++ tr.map POp.prim ++ post)

/-! ## The parallel-loop lowering (`AffineParallelOpConversion::rewrite`) -/

/-- An affine map: dimension and symbol counts, plus its list of result
expressions.  Expressions are kept abstract, as identifiers. -/
structure AffineMap where
  numDims : Nat
  numSymbols : Nat
  results : List Nat
deriving DecidableEq

/-- `AffineMap::getNumResults`. -/
def AffineMap.getNumResults (m : AffineMap) : Nat := m.results.length

/-- `AffineMap::getSubMap({i})`: keep only result `i`, retaining the
dimension and symbol counts (hence the same operand list shape). -/
def AffineMap.getSubMap (m : AffineMap) (i : Nat) : AffineMap :=
  ⟨m.numDims, m.numSymbols, [m.results.getD i 0]⟩

/-- A body operation: an identity tag (standing for the `Operation`
object) and its list of operand values. -/
structure Operation where
  tag : Nat
  operands : List ValueId
deriving DecidableEq

/-- The multi-dimensional parallel loop (`mlir::AffineParallelOp`): lower
and upper bound maps over shared operand pools, per-dimension steps, the
body's block arguments (the placeholders for the induction variables), and
the body's operations, the last of which is the terminator. -/
structure AffineParallelOp where
  lbMap : AffineMap
  ubMap : AffineMap
  lbOperands : List ValueId
  ubOperands : List ValueId
  steps : List Int
  blockArgs : List ValueId
  bodyOps : List Operation
deriving DecidableEq

/-- An operation after (or during) lowering: a single-dimension
`AffineForOp` with its bound operands, projected bound maps, step,
induction variable and nested body; a plain operation; or a
still-unlowered parallel op. -/
inductive LoweredOp where
  | forOp (lbOperands : List ValueId) (lbMap : AffineMap)
      (ubOperands : List ValueId) (ubMap : AffineMap)
      (step : Int) (iv : ValueId) (body : List LoweredOp) : LoweredOp
  | plain (o : Operation) : LoweredOp
  | par (p : AffineParallelOp) : LoweredOp

/-- The induction variables recorded by the lowering (`ivs`): one fresh
value per dimension, in dimension order.  Freshness is modelled by drawing
them above a base `fresh` that exceeds every existing value id. -/
def newIvs (op : AffineParallelOp) (fresh : Nat) : List ValueId :=
  (List.range op.lbMap.getNumResults).map (fun i => fresh + i)

/-- `Value::replaceAllUsesWith`, applied for each block argument with its
induction variable: one simultaneous renaming (the induction variables are
fresh objects, so distinct replacements never interfere). -/
def substValue (args ivs : List ValueId) (v : ValueId) : ValueId :=
  match (args.zip ivs).find? (fun p => p.1 == v) with
  | some p => p.2
  | Option.none => v

/-- The renaming applied to one operation's operands. -/
def substOp (args ivs : List ValueId) (o : Operation) : Operation :=
  ⟨o.tag, o.operands.map (substValue args ivs)⟩

/-- The loop-creation loop of `AffineParallelOpConversion::rewrite`: for
each dimension index in `is`, create an `AffineForOp` whose bounds are the
original bound maps projected to that single result with the full original
bound operand lists, whose step is that dimension's step, and whose body
holds the next loop; the innermost body receives `inner`. -/
def buildNest (op : AffineParallelOp) (fresh : Nat) :
    List Nat → List LoweredOp → List LoweredOp
  | [], inner => inner
  | i :: rest, inner =>
      [LoweredOp.forOp op.lbOperands (op.lbMap.getSubMap i) op.ubOperands
        (op.ubMap.getSubMap i) (op.steps.getD i 0) (fresh + i)
        (buildNest op fresh rest inner)]

/-- `AffineParallelOpConversion::rewrite`: create one `AffineForOp` per
result of the lower-bounds map, splice the body's non-terminator
operations into the innermost loop (or, with zero dimensions, directly at
the original op's site), and replace every use of the `i`-th block
argument with the `i`-th new induction variable.  The result is what
stands at the original op's position after the op is erased. -/
def lowerParallel (op : AffineParallelOp) (fresh : Nat) : List LoweredOp :=
  buildNest op fresh (List.range op.lbMap.getNumResults)
    (op.bodyOps.dropLast.map (fun o =>
      LoweredOp.plain (substOp op.blockArgs (newIvs op fresh) o)))

mutual

/-- Number of `AffineForOp`s in one lowered op, nested ones included. -/
def countForOp : LoweredOp → Nat
  | .forOp _ _ _ _ _ _ body => 1 + countForList body
  | _ => 0

/-- Number of `AffineForOp`s in a list of lowered ops. -/
def countForList : List LoweredOp → Nat
  | [] => 0
  | a :: l => countForOp a + countForList l

end

mutual

/-- Number of remaining parallel ops in one lowered op. -/
def countParOp : LoweredOp → Nat
  | .forOp _ _ _ _ _ _ body => countParList body
  | .plain _ => 0
  | .par _ => 1

/-- Number of remaining parallel ops in a list of lowered ops. -/
def countParList : List LoweredOp → Nat
  | [] => 0
  | a :: l => countParOp a + countParList l

end

mutual

/-- All plain operations contained in one lowered op, nested ones
included (a not-yet-lowered parallel op contributes its body). -/
def plainOpsOf : LoweredOp → List Operation
  | .forOp _ _ _ _ _ _ body => plainOpsList body
  | .plain o => [o]
  | .par p => p.bodyOps

/-- All plain operations contained in a list of lowered ops. -/
def plainOpsList : List LoweredOp → List Operation
  | [] => []
  | a :: l => plainOpsOf a ++ plainOpsList l

end

/-- One descriptor per loop of a nest: bound operands, projected bound
maps, step and induction variable. -/
abbrev LoopDesc :=
  List ValueId × AffineMap × List ValueId × AffineMap × Int × ValueId

/-- Walk the spine of a loop nest, fuel-bounded: as long as the current
list is exactly one `AffineForOp`, record its descriptor and descend into
its body. -/
def spineAux : Nat → List LoweredOp → List LoopDesc
  | 0, _ => []
  | Nat.succ fuel, l =>
      match l with
      | [LoweredOp.forOp lo lm uo um st iv body] =>
          (lo, lm, uo, um, st, iv) :: spineAux fuel body
      | _ => []

/-- The spine of a loop nest: the descriptors of the perfectly nested
loops, outermost first. -/
def spine (l : List LoweredOp) : List LoopDesc :=
  spineAux (countForList l + 1) l

/-- Descend through a perfect nest of `AffineForOp`s, fuel-bounded,
returning the innermost body. -/
def innerAux : Nat → List LoweredOp → List LoweredOp
  | 0, l => l
  | Nat.succ fuel, l =>
      match l with
      | [LoweredOp.forOp _ _ _ _ _ _ body] => innerAux fuel body
      | _ => l

/-- The innermost body of a loop nest. -/
def innerBody (l : List LoweredOp) : List LoweredOp :=
  innerAux (countForList l + 1) l

/-- Lowering of a parallel op sitting in a parent block: the ops before
and after it stay, the lowering result replaces it. -/
def lowerParallelAt (pre post : List LoweredOp) (op : AffineParallelOp)
    (fresh : Nat) : List LoweredOp :=
  pre ++ lowerParallel op fresh ++ post

/-! ## Concrete sample inputs used by witnesses -/

/-- A sample reduce op: floating add into memref 0 at map 1, indexed by
value 2. -/
def sampleReduce : AffineReduceOp :=
  ⟨AggregationKind.add, true, 0, 1, [2], ScalarVal.int 0⟩

/-- A sample two-dimensional parallel op: bounds maps with results
`[100, 101]` and `[102, 103]`, steps 1 and 2, block arguments `0` and `1`,
and a body of two operations (tags 0 and 1) followed by the terminator
(tag 2). -/
def sampleParallel : AffineParallelOp :=
  ⟨⟨0, 0, [100, 101]⟩, ⟨0, 0, [102, 103]⟩, [], [], [1, 2], [0, 1],
   [⟨0, [0, 1]⟩, ⟨1, [0]⟩, ⟨2, []⟩]⟩

/-- A sample zero-dimensional parallel op: no dimensions, no block
arguments, a body of one operation (tag 5) followed by the terminator
(tag 6). -/
def sampleParallel0 : AffineParallelOp :=
  ⟨⟨0, 0, []⟩, ⟨0, 0, []⟩, [], [], [], [], [⟨5, [9]⟩, ⟨6, []⟩]⟩

/-! ## Theorems about the reduce expansion -/

/-- C1: For every IndexedReduce with a supported aggregation kind, the
combined value computed from the loaded value L and the reduce's value V
follows the combine table: overwrite (assign) yields V; add yields L + V
(float add for floating kind, integer add for integer kind); multiply
yields L × V; maximum yields V if V is strictly greater than L else L;
minimum yields V if V is strictly less than L else L.  Concretely:
floating L=3, V=5 gives add=8, multiply=15, maximum=5, minimum=3,
overwrite=5; integer L=−2, V=7 gives maximum=7, minimum=−2. -/
theorem combine_table_correct :
    (∀ L V : ScalarVal, createReductionVal AggregationKind.assign L V = some V)
    ∧ (∀ l v : ℚ, createReductionVal AggregationKind.add
        (ScalarVal.flt (FloatVal.fin l)) (ScalarVal.flt (FloatVal.fin v)) =
        some (ScalarVal.flt (FloatVal.fin (l + v))))
    ∧ (∀ l v : Int, createReductionVal AggregationKind.add
        (ScalarVal.int l) (ScalarVal.int v) = some (ScalarVal.int (l + v)))
    ∧ (∀ l v : ℚ, createReductionVal AggregationKind.mul
        (ScalarVal.flt (FloatVal.fin l)) (ScalarVal.flt (FloatVal.fin v)) =
        some (ScalarVal.flt (FloatVal.fin (l * v))))
    ∧ (∀ l v : Int, createReductionVal AggregationKind.mul
        (ScalarVal.int l) (ScalarVal.int v) = some (ScalarVal.int (l * v)))
    ∧ (∀ l v : ℚ, createReductionVal AggregationKind.max
        (ScalarVal.flt (FloatVal.fin l)) (ScalarVal.flt (FloatVal.fin v)) =
        some (ScalarVal.flt (FloatVal.fin (if l < v then v else l))))
    ∧ (∀ l v : Int, createReductionVal AggregationKind.max
        (ScalarVal.int l) (ScalarVal.int v) =
        some (ScalarVal.int (if l < v then v else l)))
    ∧ (∀ l v : ℚ, createReductionVal AggregationKind.min
        (ScalarVal.flt (FloatVal.fin l)) (ScalarVal.flt (FloatVal.fin v)) =
        some (ScalarVal.flt (FloatVal.fin (if v < l then v else l))))
    ∧ (∀ l v : Int, createReductionVal AggregationKind.min
        (ScalarVal.int l) (ScalarVal.int v) =
        some (ScalarVal.int (if v < l then v else l)))
    ∧ createReductionVal AggregationKind.add
        (ScalarVal.flt (FloatVal.fin 3)) (ScalarVal.flt (FloatVal.fin 5)) =
        some (ScalarVal.flt (FloatVal.fin 8))
    ∧ createReductionVal AggregationKind.mul
        (ScalarVal.flt (FloatVal.fin 3)) (ScalarVal.flt (FloatVal.fin 5)) =
        some (ScalarVal.flt (FloatVal.fin 15))
    ∧ createReductionVal AggregationKind.max
        (ScalarVal.flt (FloatVal.fin 3)) (ScalarVal.flt (FloatVal.fin 5)) =
        some (ScalarVal.flt (FloatVal.fin 5))
    ∧ createReductionVal AggregationKind.min
        (ScalarVal.flt (FloatVal.fin 3)) (ScalarVal.flt (FloatVal.fin 5)) =
        some (ScalarVal.flt (FloatVal.fin 3))
    ∧ createReductionVal AggregationKind.assign
        (ScalarVal.flt (FloatVal.fin 3)) (ScalarVal.flt (FloatVal.fin 5)) =
        some (ScalarVal.flt (FloatVal.fin 5))
    ∧ createReductionVal AggregationKind.max
        (ScalarVal.int (-2)) (ScalarVal.int 7) = some (ScalarVal.int 7)
    ∧ createReductionVal AggregationKind.min
        (ScalarVal.int (-2)) (ScalarVal.int 7) = some (ScalarVal.int (-2)) := by
  refine ⟨fun L V => rfl, fun l v => rfl, fun l v => rfl, fun l v => rfl,
    fun l v => rfl, fun l v => ?_, fun l v => ?_, fun l v => ?_, fun l v => ?_,
    by norm_num [createReductionVal, faddV],
    by norm_num [createReductionVal, fmulV],
    by norm_num [createReductionVal, selectV, cmpF],
    by norm_num [createReductionVal, selectV, cmpF],
    rfl, by decide, by decide⟩
  · by_cases h : l < v <;> simp [createReductionVal, selectV, cmpF, h]
  · by_cases h : l < v <;> simp [createReductionVal, selectV, cmpI, h]
  · by_cases h : v < l <;> simp [createReductionVal, selectV, cmpF, h]
  · by_cases h : v < l <;> simp [createReductionVal, selectV, cmpI, h]

/-- C6: For floating maximum and minimum the emitted comparison is an
ordered comparison (OGT resp. OLT), which evaluates false whenever either
operand is NaN; consequently, for every floating reduce with maximum or
minimum aggregation, a NaN loaded value L makes the combined value L (V is
never selected); concretely L=NaN, V=1.0 yields NaN for both. -/
theorem fmax_fmin_nan_propagation :
    (∀ a : FloatVal,
        cmpF CmpFPredicate.OGT FloatVal.nan a = false
        ∧ cmpF CmpFPredicate.OGT a FloatVal.nan = false
        ∧ cmpF CmpFPredicate.OLT FloatVal.nan a = false
        ∧ cmpF CmpFPredicate.OLT a FloatVal.nan = false)
    ∧ combineOpsFor AggregationKind.max true =
        some [CombineOp.cmpf CmpFPredicate.OGT, CombineOp.select]
    ∧ combineOpsFor AggregationKind.min true =
        some [CombineOp.cmpf CmpFPredicate.OLT, CombineOp.select]
    ∧ (∀ V : FloatVal, createReductionVal AggregationKind.max
        (ScalarVal.flt FloatVal.nan) (ScalarVal.flt V) =
        some (ScalarVal.flt FloatVal.nan))
    ∧ (∀ V : FloatVal, createReductionVal AggregationKind.min
        (ScalarVal.flt FloatVal.nan) (ScalarVal.flt V) =
        some (ScalarVal.flt FloatVal.nan))
    ∧ createReductionVal AggregationKind.max
        (ScalarVal.flt FloatVal.nan) (ScalarVal.flt (FloatVal.fin 1)) =
        some (ScalarVal.flt FloatVal.nan)
    ∧ createReductionVal AggregationKind.min
        (ScalarVal.flt FloatVal.nan) (ScalarVal.flt (FloatVal.fin 1)) =
        some (ScalarVal.flt FloatVal.nan) := by
  refine ⟨fun a => ?_, rfl, rfl, fun V => ?_, fun V => ?_, by decide, by decide⟩
  · cases a <;> exact ⟨rfl, rfl, rfl, rfl⟩
  · cases V <;> rfl
  · cases V <;> rfl

/-- C7: Expanding a reduce whose aggregation kind lies outside the five
supported kinds hits the `llvm_unreachable` default: the transformation
aborts, no load/combine/store triple is produced, and no partial or
default combine is attempted. -/
theorem reduce_fatal_kind :
    ∀ (f : Bool) (o mp : Nat) (idxs : List Nat) (v : ScalarVal),
      combineOpsFor AggregationKind.none f = Option.none
      ∧ (∀ L V : ScalarVal,
          createReductionVal AggregationKind.none L V = Option.none)
      ∧ reduceRewrite ⟨AggregationKind.none, f, o, mp, idxs, v⟩ = Option.none
      ∧ ∀ pre post : List POp,
          expandReduceAt pre post ⟨AggregationKind.none, f, o, mp, idxs, v⟩ =
            Option.none := by
  intro f o mp idxs v
  refine ⟨rfl, fun L V => ?_, rfl, fun pre post => rfl⟩
  cases L <;> cases V <;> rfl

/-- C8: For every integer-kind reduce with maximum or minimum aggregation
the emitted comparison is always the signed predicate (sgt for maximum,
slt for minimum) — the lowering has no unsigned variant at all — and the
combined value follows the signed order; concretely, integer maximum of
L=−2 and V=7 yields 7. -/
theorem int_cmp_always_signed :
    combineOpsFor AggregationKind.max false =
        some [CombineOp.cmpi CmpIPredicate.sgt, CombineOp.select]
    ∧ combineOpsFor AggregationKind.min false =
        some [CombineOp.cmpi CmpIPredicate.slt, CombineOp.select]
    ∧ (∀ (o mp : Nat) (idxs : List Nat) (v : ScalarVal),
        reduceRewrite ⟨AggregationKind.max, false, o, mp, idxs, v⟩ =
          some [EmOp.load o mp idxs, EmOp.comb (CombineOp.cmpi CmpIPredicate.sgt),
            EmOp.comb CombineOp.select, EmOp.store o mp idxs])
    ∧ (∀ (o mp : Nat) (idxs : List Nat) (v : ScalarVal),
        reduceRewrite ⟨AggregationKind.min, false, o, mp, idxs, v⟩ =
          some [EmOp.load o mp idxs, EmOp.comb (CombineOp.cmpi CmpIPredicate.slt),
            EmOp.comb CombineOp.select, EmOp.store o mp idxs])
    ∧ (∀ l v : Int, cmpI CmpIPredicate.sgt v l = decide (l < v))
    ∧ (∀ l v : Int, cmpI CmpIPredicate.slt v l = decide (v < l))
    ∧ (∀ l v : Int, createReductionVal AggregationKind.max
        (ScalarVal.int l) (ScalarVal.int v) =
        some (ScalarVal.int (if l < v then v else l)))
    ∧ (∀ l v : Int, createReductionVal AggregationKind.min
        (ScalarVal.int l) (ScalarVal.int v) =
        some (ScalarVal.int (if v < l then v else l)))
    ∧ createReductionVal AggregationKind.max
        (ScalarVal.int (-2)) (ScalarVal.int 7) = some (ScalarVal.int 7)
    ∧ createReductionVal AggregationKind.min
        (ScalarVal.int (-2)) (ScalarVal.int 7) = some (ScalarVal.int (-2)) := by
  refine ⟨rfl, rfl, fun o mp idxs v => rfl, fun o mp idxs v => rfl,
    fun l v => rfl, fun l v => rfl, fun l v => ?_, fun l v => ?_,
    by decide, by decide⟩
  · by_cases h : l < v <;> simp [createReductionVal, selectV, cmpI, h]
  · by_cases h : v < l <;> simp [createReductionVal, selectV, cmpI, h]

/-- C9: For every reduce with overwrite (assign) aggregation, the load is
still emitted — the trace is exactly a load followed by a store at the
same access — while the stored value equals the reduce's value V for every
possible loaded value L, so the loaded value does not affect the stored
value. -/
theorem overwrite_still_loads :
    (∀ (f : Bool) (o mp : Nat) (idxs : List Nat) (v : ScalarVal),
        reduceRewrite ⟨AggregationKind.assign, f, o, mp, idxs, v⟩ =
          some [EmOp.load o mp idxs, EmOp.store o mp idxs])
    ∧ (∀ L V : ScalarVal, createReductionVal AggregationKind.assign L V = some V)
    ∧ (∀ L L' V : ScalarVal,
        createReductionVal AggregationKind.assign L V =
          createReductionVal AggregationKind.assign L' V) := by
  exact ⟨fun f o mp idxs v => rfl, fun L V => rfl, fun L L' V => rfl⟩

theorem filter_isLoad_map_comb (cs : List CombineOp) :
    (cs.map EmOp.comb).filter isLoad = [] := by
  induction cs with
  | nil => rfl
  | cons c cs ih => simp [List.filter_cons, isLoad, ih]

theorem filter_isStore_map_comb (cs : List CombineOp) :
    (cs.map EmOp.comb).filter isStore = [] := by
  induction cs with
  | nil => rfl
  | cons c cs ih => simp [List.filter_cons, isStore, ih]

theorem combineOpsFor_isSome (agg : AggregationKind) (f : Bool)
    (h : agg ≠ AggregationKind.none) :
    ∃ cs, combineOpsFor agg f = some cs := by
  cases agg <;> cases f <;> first
    | exact absurd rfl h
    | exact ⟨_, rfl⟩

/-- C4: For every reduce with a supported aggregation kind, expansion
emits exactly one load, then the combine, then exactly one store, in that
order at the original op's program point; load and store use the identical
memref, index mapping and index operands as the original op, and the
original op is absent afterward. -/
theorem reduce_shape_law (op : AffineReduceOp) (pre post : List POp)
    (h : op.agg ≠ AggregationKind.none)
    (hpre : POp.reduce op ∉ pre) (hpost : POp.reduce op ∉ post) :
    ∃ cs : List CombineOp,
      combineOpsFor op.agg op.elemFloat = some cs
      ∧ reduceRewrite op = some (EmOp.load op.out op.map op.idxs ::
          (cs.map EmOp.comb ++ [EmOp.store op.out op.map op.idxs]))
      ∧ ((EmOp.load op.out op.map op.idxs ::
          (cs.map EmOp.comb ++ [EmOp.store op.out op.map op.idxs])).filter
            isLoad).length = 1
      ∧ ((EmOp.load op.out op.map op.idxs ::
          (cs.map EmOp.comb ++ [EmOp.store op.out op.map op.idxs])).filter
            isStore).length = 1
      ∧ expandReduceAt pre post op = some (pre ++
          (EmOp.load op.out op.map op.idxs ::
            (cs.map EmOp.comb ++ [EmOp.store op.out op.map op.idxs])).map
              POp.prim ++ post)
      ∧ POp.reduce op ∉ pre ++
          (EmOp.load op.out op.map op.idxs ::
            (cs.map EmOp.comb ++ [EmOp.store op.out op.map op.idxs])).map
              POp.prim ++ post := by
  obtain ⟨cs, hcs⟩ := combineOpsFor_isSome op.agg op.elemFloat h
  refine ⟨cs, hcs, ?_, ?_, ?_, ?_, ?_⟩
  · simp [reduceRewrite, hcs]
  · simp [List.filter_cons, List.filter_append, isLoad,
      filter_isLoad_map_comb]
  · simp [List.filter_cons, List.filter_append, isStore,
      filter_isStore_map_comb]
  · simp [expandReduceAt, reduceRewrite, hcs]
  · intro hm
    rcases List.mem_append.1 hm with hm1 | hm2
    · rcases List.mem_append.1 hm1 with hp | hmap
      · exact hpre hp
      · rcases List.mem_map.1 hmap with ⟨e, _, he⟩
        simp at he
    · exact hpost hm2

theorem reduce_shape_law_witness :
    (sampleReduce.agg ≠ AggregationKind.none
      ∧ POp.reduce sampleReduce ∉ ([] : List POp)
      ∧ POp.reduce sampleReduce ∉ ([] : List POp))
    ∧ ∃ cs : List CombineOp,
      combineOpsFor sampleReduce.agg sampleReduce.elemFloat = some cs
      ∧ reduceRewrite sampleReduce =
          some (EmOp.load sampleReduce.out sampleReduce.map sampleReduce.idxs ::
            (cs.map EmOp.comb ++
              [EmOp.store sampleReduce.out sampleReduce.map sampleReduce.idxs]))
      ∧ ((EmOp.load sampleReduce.out sampleReduce.map sampleReduce.idxs ::
          (cs.map EmOp.comb ++
            [EmOp.store sampleReduce.out sampleReduce.map sampleReduce.idxs])).filter
              isLoad).length = 1
      ∧ ((EmOp.load sampleReduce.out sampleReduce.map sampleReduce.idxs ::
          (cs.map EmOp.comb ++
            [EmOp.store sampleReduce.out sampleReduce.map sampleReduce.idxs])).filter
              isStore).length = 1
      ∧ expandReduceAt [] [] sampleReduce = some (([] : List POp) ++
          (EmOp.load sampleReduce.out sampleReduce.map sampleReduce.idxs ::
            (cs.map EmOp.comb ++
              [EmOp.store sampleReduce.out sampleReduce.map sampleReduce.idxs])).map
                POp.prim ++ ([] : List POp))
      ∧ POp.reduce sampleReduce ∉ ([] : List POp) ++
          (EmOp.load sampleReduce.out sampleReduce.map sampleReduce.idxs ::
            (cs.map EmOp.comb ++
              [EmOp.store sampleReduce.out sampleReduce.map sampleReduce.idxs])).map
                POp.prim ++ ([] : List POp) :=
  ⟨⟨by decide, by decide, by decide⟩,
    reduce_shape_law sampleReduce [] [] (by decide) (by decide) (by decide)⟩

/-! ## Helper lemmas about the placeholder substitution -/

theorem substValue_nil (ivs : List ValueId) (v : ValueId) :
    substValue [] ivs v = v := rfl

theorem substValue_nil_ivs (args : List ValueId) (v : ValueId) :
    substValue args [] v = v := by
  cases args <;> rfl

theorem substValue_cons (a b : ValueId) (as bs : List ValueId) (v : ValueId) :
    substValue (a :: as) (b :: bs) v = if a = v then b else substValue as bs v := by
  by_cases h : a = v <;> simp [substValue, List.find?_cons, h]

theorem substValue_mem_or_eq (args : List ValueId) :
    ∀ (ivs : List ValueId) (v : ValueId),
      substValue args ivs v ∈ ivs ∨ substValue args ivs v = v := by
  induction args with
  | nil => exact fun ivs v => Or.inr rfl
  | cons a as ih =>
    intro ivs v
    match ivs with
    | [] => exact Or.inr (substValue_nil_ivs _ _)
    | b :: bs =>
      rw [substValue_cons]
      by_cases h : a = v
      · simp [h]
      · rcases ih bs v with hm | he
        · simp [h, List.mem_cons, hm]
        · simp [h, he]

theorem substValue_not_mem (args : List ValueId) :
    ∀ (ivs : List ValueId), ivs.length = args.length →
      (∀ b ∈ ivs, b ∉ args) → ∀ v, substValue args ivs v ∉ args := by
  induction args with
  | nil => intro ivs _ _ v; simp
  | cons a as ih =>
    intro ivs hlen hfr v
    match ivs with
    | b :: bs =>
      rw [substValue_cons]
      by_cases h : a = v
      · simpa [h] using hfr b (by simp)
      · simp only [if_neg h, List.mem_cons, not_or]
        constructor
        · rcases substValue_mem_or_eq as bs v with hm | he
          · have := hfr _ (List.mem_cons_of_mem b hm)
            simp only [List.mem_cons, not_or] at this
            exact this.1
          · rw [he]; exact fun hva => h hva.symm
        · exact ih bs (by simpa using hlen)
            (fun b' hb' => by
              have := hfr b' (List.mem_cons_of_mem b hb')
              simp only [List.mem_cons, not_or] at this
              exact this.2) v

theorem substValue_get (args : List ValueId) :
    ∀ (ivs : List ValueId), args.Nodup → ivs.length = args.length →
      ∀ (i : Nat) (hi : i < args.length),
        substValue args ivs (args.get ⟨i, hi⟩) = ivs.getD i 0 := by
  induction args with
  | nil => intro ivs _ _ i hi; exact absurd hi (Nat.not_lt_zero i)
  | cons a as ih =>
    intro ivs hnd hlen i hi
    match ivs with
    | b :: bs =>
      match i with
      | 0 => rw [substValue_cons]; simp
      | Nat.succ j =>
        rw [substValue_cons]
        have hj : j < as.length := Nat.lt_of_succ_lt_succ hi
        have hne : a ≠ as.get ⟨j, hj⟩ := by
          intro hcon
          exact (List.nodup_cons.1 hnd).1 (hcon ▸ List.get_mem as j hj)
        simp only [List.get, if_neg hne, List.getD]
        exact ih bs (List.nodup_cons.1 hnd).2 (by simpa using hlen) j hj

/-! ## Helper lemmas about the nest structure -/

theorem newIvs_length (op : AffineParallelOp) (fresh : Nat) :
    (newIvs op fresh).length = op.lbMap.getNumResults := by
  simp [newIvs]

theorem newIvs_getD (op : AffineParallelOp) (fresh : Nat) (i : Nat)
    (hi : i < op.lbMap.getNumResults) :
    (newIvs op fresh).getD i 0 = fresh + i := by
  simp [newIvs, List.getD_eq_getElem?_getD, List.getElem?_map,
    List.getElem?_range hi]

theorem newIvs_ge (op : AffineParallelOp) (fresh : Nat) :
    ∀ b ∈ newIvs op fresh, fresh ≤ b := by
  intro b hb
  simp only [newIvs, List.mem_map, List.mem_range] at hb
  obtain ⟨i, _, rfl⟩ := hb
  exact Nat.le_add_right fresh i

theorem countForList_map_plain (l : List Operation) (f : Operation → Operation) :
    countForList (l.map fun o => LoweredOp.plain (f o)) = 0 := by
  induction l with
  | nil => rfl
  | cons a l ih => simp [countForList, countForOp, ih]

theorem countForList_buildNest (op : AffineParallelOp) (fresh : Nat) :
    ∀ (is : List Nat) (inner : List LoweredOp),
      countForList (buildNest op fresh is inner) = is.length + countForList inner := by
  intro is
  induction is with
  | nil => intro inner; simp [buildNest]
  | cons i rest ih =>
    intro inner
    simp [buildNest, countForList, countForOp, ih inner]
    omega

theorem countParList_map_plain (l : List Operation) (f : Operation → Operation) :
    countParList (l.map fun o => LoweredOp.plain (f o)) = 0 := by
  induction l with
  | nil => rfl
  | cons a l ih => simp [countParList, countParOp, ih]

theorem countParList_buildNest (op : AffineParallelOp) (fresh : Nat) :
    ∀ (is : List Nat) (inner : List LoweredOp),
      countParList (buildNest op fresh is inner) = countParList inner := by
  intro is
  induction is with
  | nil => intro inner; simp [buildNest]
  | cons i rest ih => intro inner; simp [buildNest, countParList, countParOp, ih inner]

theorem plainOpsList_map_plain (l : List Operation) (f : Operation → Operation) :
    plainOpsList (l.map fun o => LoweredOp.plain (f o)) = l.map f := by
  induction l with
  | nil => rfl
  | cons a l ih => simp [plainOpsList, plainOpsOf, ih]

theorem plainOpsList_buildNest (op : AffineParallelOp) (fresh : Nat) :
    ∀ (is : List Nat) (inner : List LoweredOp),
      plainOpsList (buildNest op fresh is inner) = plainOpsList inner := by
  intro is
  induction is with
  | nil => intro inner; simp [buildNest]
  | cons i rest ih =>
    intro inner
    simp [buildNest, plainOpsList, plainOpsOf, ih inner]

theorem spineAux_map_plain (fuel : Nat) (l : List Operation)
    (f : Operation → Operation) :
    spineAux fuel (l.map fun o => LoweredOp.plain (f o)) = [] := by
  cases fuel with
  | zero => rfl
  | succ fuel => cases l with
    | nil => rfl
    | cons a l => rfl

theorem spineAux_buildNest (op : AffineParallelOp) (fresh : Nat) :
    ∀ (is : List Nat) (inner : List LoweredOp) (fuel : Nat),
      is.length < fuel → (∀ f', spineAux f' inner = []) →
      spineAux fuel (buildNest op fresh is inner) =
        is.map (fun i => (op.lbOperands, op.lbMap.getSubMap i, op.ubOperands,
          op.ubMap.getSubMap i, op.steps.getD i 0, fresh + i)) := by
  intro is
  induction is with
  | nil => intro inner fuel _ hstop; exact hstop fuel
  | cons i rest ih =>
    intro inner fuel hfuel hstop
    match fuel with
    | Nat.succ fuel =>
      simp only [buildNest, spineAux, List.map_cons]
      exact congrArg _ (ih inner fuel (Nat.lt_of_succ_lt_succ hfuel) hstop)

theorem innerAux_map_plain (fuel : Nat) (l : List Operation)
    (f : Operation → Operation) :
    innerAux fuel (l.map fun o => LoweredOp.plain (f o)) =
      l.map fun o => LoweredOp.plain (f o) := by
  cases fuel with
  | zero => rfl
  | succ fuel => cases l with
    | nil => rfl
    | cons a l => rfl

theorem innerAux_buildNest (op : AffineParallelOp) (fresh : Nat) :
    ∀ (is : List Nat) (inner : List LoweredOp) (fuel : Nat),
      is.length < fuel → (∀ f', innerAux f' inner = inner) →
      innerAux fuel (buildNest op fresh is inner) = inner := by
  intro is
  induction is with
  | nil => intro inner fuel _ hstop; exact hstop fuel
  | cons i rest ih =>
    intro inner fuel hfuel hstop
    match fuel with
    | Nat.succ fuel =>
      simp only [buildNest, innerAux]
      exact ih inner fuel (Nat.lt_of_succ_lt_succ hfuel) hstop

theorem countForList_lowerParallel (op : AffineParallelOp) (fresh : Nat) :
    countForList (lowerParallel op fresh) = op.lbMap.getNumResults := by
  unfold lowerParallel
  rw [countForList_buildNest, countForList_map_plain]
  simp

theorem countParList_lowerParallel (op : AffineParallelOp) (fresh : Nat) :
    countParList (lowerParallel op fresh) = 0 := by
  unfold lowerParallel
  rw [countParList_buildNest, countParList_map_plain]

theorem plainOpsList_lowerParallel (op : AffineParallelOp) (fresh : Nat) :
    plainOpsList (lowerParallel op fresh) =
      op.bodyOps.dropLast.map (fun o => substOp op.blockArgs (newIvs op fresh) o) := by
  unfold lowerParallel
  rw [plainOpsList_buildNest, plainOpsList_map_plain]

theorem innerBody_lowerParallel (op : AffineParallelOp) (fresh : Nat) :
    innerBody (lowerParallel op fresh) =
      op.bodyOps.dropLast.map (fun o =>
        LoweredOp.plain (substOp op.blockArgs (newIvs op fresh) o)) := by
  unfold innerBody
  rw [countForList_lowerParallel]
  unfold lowerParallel
  apply innerAux_buildNest
  · simp
  · intro f'
    exact innerAux_map_plain f' _ _

theorem spine_lowerParallel (op : AffineParallelOp) (fresh : Nat) :
    spine (lowerParallel op fresh) =
      (List.range op.lbMap.getNumResults).map (fun i =>
        (op.lbOperands, op.lbMap.getSubMap i, op.ubOperands, op.ubMap.getSubMap i,
          op.steps.getD i 0, fresh + i)) := by
  unfold spine
  rw [countForList_lowerParallel]
  unfold lowerParallel
  apply spineAux_buildNest
  · simp
  · intro f'
    exact spineAux_map_plain f' _ _

/-! ## Theorems about the parallel-loop lowering -/

/-- C2: Lowering an N-dimension parallel loop produces exactly N
sequential loops nested outer-to-inner in the original dimension order:
the nest's spine records, for dimension i, the full original lower/upper
bound operand lists unchanged and the original bound maps projected onto
single result i (`getSubMap`), together with dimension i's step; when N=0,
zero loops are produced and the body is inlined at the original loop's
site. -/
theorem parallel_nest_shape (op : AffineParallelOp) (fresh : Nat) :
    spine (lowerParallel op fresh) =
      (List.range op.lbMap.getNumResults).map (fun i =>
        (op.lbOperands, op.lbMap.getSubMap i, op.ubOperands, op.ubMap.getSubMap i,
          op.steps.getD i 0, fresh + i))
    ∧ countForList (lowerParallel op fresh) = op.lbMap.getNumResults
    ∧ (op.lbMap.getNumResults = 0 →
        lowerParallel op fresh = op.bodyOps.dropLast.map (fun o =>
          LoweredOp.plain (substOp op.blockArgs (newIvs op fresh) o))) := by
  refine ⟨spine_lowerParallel op fresh, countForList_lowerParallel op fresh, ?_⟩
  intro h0
  unfold lowerParallel
  simp [h0, buildNest]

theorem parallel_nest_shape_witness :
    sampleParallel0.lbMap.getNumResults = 0
    ∧ lowerParallel sampleParallel0 7 = sampleParallel0.bodyOps.dropLast.map (fun o =>
        LoweredOp.plain (substOp sampleParallel0.blockArgs (newIvs sampleParallel0 7) o)) :=
  ⟨rfl, (parallel_nest_shape sampleParallel0 7).2.2 rfl⟩

/-- C3: After lowering, no operation in the result references any of the
original loop's block arguments; the i-th block argument is replaced
exactly by the i-th newly created induction variable; and no parallel op
remains in the result (the original op was erased). -/
theorem parallel_no_dangling_args (op : AffineParallelOp) (fresh : Nat)
    (hlen : op.blockArgs.length = op.lbMap.getNumResults)
    (hnd : op.blockArgs.Nodup)
    (hfr : ∀ a ∈ op.blockArgs, a < fresh) :
    (∀ o ∈ plainOpsList (lowerParallel op fresh), ∀ v ∈ o.operands,
        v ∉ op.blockArgs)
    ∧ (∀ (i : Nat) (hi : i < op.blockArgs.length),
        substValue op.blockArgs (newIvs op fresh) (op.blockArgs.get ⟨i, hi⟩) =
          fresh + i)
    ∧ countParList (lowerParallel op fresh) = 0 := by
  have hivlen : (newIvs op fresh).length = op.blockArgs.length := by
    rw [newIvs_length, hlen]
  have hivfr : ∀ b ∈ newIvs op fresh, b ∉ op.blockArgs := by
    intro b hb hmem
    exact absurd (hfr b hmem) (Nat.not_lt.2 (newIvs_ge op fresh b hb))
  refine ⟨?_, ?_, countParList_lowerParallel op fresh⟩
  · intro o ho v hv
    rw [plainOpsList_lowerParallel] at ho
    rcases List.mem_map.1 ho with ⟨o0, _, rfl⟩
    simp only [substOp, List.mem_map] at hv
    rcases hv with ⟨w, _, rfl⟩
    exact substValue_not_mem op.blockArgs (newIvs op fresh) hivlen hivfr w
  · intro i hi
    rw [substValue_get op.blockArgs (newIvs op fresh) hnd hivlen i hi,
      newIvs_getD op fresh i (hlen ▸ hi)]

theorem parallel_no_dangling_args_witness :
    (sampleParallel.blockArgs.length = sampleParallel.lbMap.getNumResults
      ∧ sampleParallel.blockArgs.Nodup
      ∧ ∀ a ∈ sampleParallel.blockArgs, a < 10)
    ∧ ((∀ o ∈ plainOpsList (lowerParallel sampleParallel 10), ∀ v ∈ o.operands,
          v ∉ sampleParallel.blockArgs)
      ∧ (∀ (i : Nat) (hi : i < sampleParallel.blockArgs.length),
          substValue sampleParallel.blockArgs (newIvs sampleParallel 10)
            (sampleParallel.blockArgs.get ⟨i, hi⟩) = 10 + i)
      ∧ countParList (lowerParallel sampleParallel 10) = 0) :=
  ⟨⟨by decide, by decide, by decide⟩,
    parallel_no_dangling_args sampleParallel 10 (by decide) (by decide) (by decide)⟩

/-- C5: The sequence of operations in the lowered innermost body is the
original body's sequence of non-terminator operations, element for element
in the same relative order (same operation identities, operands rewritten
only by the mandated placeholder substitution); the original body's
terminator is not among them. -/
theorem parallel_order_preserved (op : AffineParallelOp) (fresh : Nat)
    (hne : op.bodyOps ≠ [])
    (hnd : (op.bodyOps.map Operation.tag).Nodup) :
    innerBody (lowerParallel op fresh) = op.bodyOps.dropLast.map (fun o =>
        LoweredOp.plain (substOp op.blockArgs (newIvs op fresh) o))
    ∧ (plainOpsList (innerBody (lowerParallel op fresh))).map Operation.tag =
        op.bodyOps.dropLast.map Operation.tag
    ∧ (op.bodyOps.getLast hne).tag ∉
        (plainOpsList (innerBody (lowerParallel op fresh))).map Operation.tag := by
  have htags : (plainOpsList (innerBody (lowerParallel op fresh))).map Operation.tag =
      op.bodyOps.dropLast.map Operation.tag := by
    rw [innerBody_lowerParallel, plainOpsList_map_plain, List.map_map]
    rfl
  refine ⟨innerBody_lowerParallel op fresh, htags, ?_⟩
  rw [htags]
  have hsplit : op.bodyOps.dropLast ++ [op.bodyOps.getLast hne] = op.bodyOps :=
    List.dropLast_append_getLast hne
  rw [← hsplit, List.map_append] at hnd
  rcases List.nodup_append.1 hnd with ⟨_, _, hdisj⟩
  intro hmem
  exact hdisj hmem (by simp)

theorem parallel_order_preserved_witness :
    (sampleParallel.bodyOps ≠ []
      ∧ (sampleParallel.bodyOps.map Operation.tag).Nodup)
    ∧ (innerBody (lowerParallel sampleParallel 10) =
        sampleParallel.bodyOps.dropLast.map (fun o =>
          LoweredOp.plain (substOp sampleParallel.blockArgs
            (newIvs sampleParallel 10) o))
      ∧ (plainOpsList (innerBody (lowerParallel sampleParallel 10))).map
          Operation.tag = sampleParallel.bodyOps.dropLast.map Operation.tag
      ∧ (sampleParallel.bodyOps.getLast (by decide)).tag ∉
          (plainOpsList (innerBody (lowerParallel sampleParallel 10))).map
            Operation.tag) :=
  ⟨⟨by decide, by decide⟩,
    parallel_order_preserved sampleParallel 10 (by decide) (by decide)⟩

/-- C10: For a parallel loop whose block-argument count equals its
dimension count N, exactly N induction variables are recorded, every index
used by the substitution step is in bounds for the recorded list, and the
i-th block argument is paired with entry i of the list. -/
theorem subst_index_in_bounds (op : AffineParallelOp) (fresh : Nat)
    (hlen : op.blockArgs.length = op.lbMap.getNumResults)
    (hnd : op.blockArgs.Nodup) :
    (newIvs op fresh).length = op.lbMap.getNumResults
    ∧ (∀ idx, idx < op.blockArgs.length → idx < (newIvs op fresh).length)
    ∧ (∀ (i : Nat) (hi : i < op.blockArgs.length),
        substValue op.blockArgs (newIvs op fresh) (op.blockArgs.get ⟨i, hi⟩) =
          (newIvs op fresh).getD i 0) := by
  refine ⟨newIvs_length op fresh, ?_, ?_⟩
  · intro idx h
    rw [newIvs_length]
    exact hlen ▸ h
  · intro i hi
    exact substValue_get op.blockArgs (newIvs op fresh) hnd
      (by rw [newIvs_length, hlen]) i hi

theorem subst_index_in_bounds_witness :
    (sampleParallel.blockArgs.length = sampleParallel.lbMap.getNumResults
      ∧ sampleParallel.blockArgs.Nodup)
    ∧ ((newIvs sampleParallel 10).length = sampleParallel.lbMap.getNumResults
      ∧ (∀ idx, idx < sampleParallel.blockArgs.length →
          idx < (newIvs sampleParallel 10).length)
      ∧ (∀ (i : Nat) (hi : i < sampleParallel.blockArgs.length),
          substValue sampleParallel.blockArgs (newIvs sampleParallel 10)
            (sampleParallel.blockArgs.get ⟨i, hi⟩) =
            (newIvs sampleParallel 10).getD i 0)) :=
  ⟨⟨by decide, by decide⟩,
    subst_index_in_bounds sampleParallel 10 (by decide) (by decide)⟩

end PxaToAffine
